import Mathlib

/-!
Verification of the chunked-transfer utility layer (`src/lib/util.ts`).

Byte buffers (`ArrayBuffer` / `Uint8Array`) are modelled as `List Nat`, one
element per byte.  JavaScript strings are modelled as `List Char` for the
regular-expression based `validateId`, and as `List Nat` of UTF-16 code units
for `binaryStringToArrayBuffer` (whose loop reads `charCodeAt(i)`, i.e. code
units).  Loops are embedded as fuel-indexed structural recursions so that every
definition evaluates by kernel reduction; the fuel is always an upper bound on
the number of iterations of the source loop.
-/

/-- The configured MTU: `readonly chunkedMTU = 16300` in `Util`. -/
def chunkedMTU : Nat := 16300

/-- One element of the array returned by `Util.chunk`:
`{ __peerData: number; n: number; total: number; data: ArrayBuffer }`. -/
structure ChunkRecord where
  __peerData : Nat
  n : Nat
  data : List Nat
  total : Nat
deriving DecidableEq

/-- `Math.ceil(a / b)` for a natural `a` and positive natural `b`
(the arguments of `Math.ceil(size / util.chunkedMTU)` are exact here). -/
def ceilDivNat (a b : Nat) : Nat := (a + b - 1) / b

/-- The `while (start < size)` loop of `Util.chunk`.  The remaining buffer
`rest` stands for `blob[start..]`; each iteration slices
`blob.slice(start, min(size, start + chunkedMTU))` (that is,
`rest.take chunkedMTU`), pushes a record, and advances `start` (that is,
drops the taken bytes).  `fuel` bounds the iteration count: every iteration
consumes at least one byte, so `blob.length` fuel is enough. -/
def chunkGo (cnt tot : Nat) : Nat → List Nat → Nat → List ChunkRecord
  | 0, _, _ => []
  | _ + 1, [], _ => []
  | fuel + 1, rest@(_ :: _), idx =>
      { __peerData := cnt, n := idx, data := rest.take chunkedMTU, total := tot } ::
        chunkGo cnt tot fuel (rest.drop chunkedMTU) (idx + 1)

/-- The mutable state of a `Util` instance: `private _dataCount: number = 1`. -/
structure Util where
  _dataCount : Nat := 1

/-- The singleton `export const util = new Util()`, with its freshly
initialized counter. -/
def util : Util := {}

/-- `Util.chunk(blob)`: computes `total = Math.ceil(size / util.chunkedMTU)`,
runs the slicing loop with the current `_dataCount` as transfer id, then
increments `_dataCount` once.  The post-call instance state is returned
alongside the chunk list. -/
def Util.chunk (u : Util) (blob : List Nat) : List ChunkRecord × Util :=
  let size := blob.length
  let total := ceilDivNat size chunkedMTU
  (chunkGo u._dataCount total size blob 0, { _dataCount := u._dataCount + 1 })

/-- `Uint8Array.prototype.set(buf, offset)`: overwrite the bytes at positions
`[offset, offset + buf.length)` of `arr`, leaving the rest unchanged.  The
caller of this model always writes within bounds. -/
def writeAt (arr buf : List Nat) (off : Nat) : List Nat :=
  arr.take off ++ buf ++ arr.drop (off + buf.length)

/-- The second loop of `concatArrayBuffers`: successively `set` each buffer
into the result at the running offset. -/
def concatLoop : List (List Nat) → List Nat → Nat → List Nat
  | [], acc, _ => acc
  | b :: bs, acc, off => concatLoop bs (writeAt acc b off) (off + b.length)

/-- `concatArrayBuffers(bufs)`: sum the byte lengths, allocate a
zero-initialized `Uint8Array` of that size, and copy each buffer in at the
running offset. -/
def concatArrayBuffers (bufs : List (List Nat)) : List Nat :=
  concatLoop bufs (List.replicate ((bufs.map List.length).sum) 0) 0

/-- Lengths of the successive slices `Util.chunk` takes from a buffer with
`L` bytes remaining; a proof-layer companion of `chunkGo` used to reason
about payload sizes without materializing payloads. -/
def lensGo : Nat → Nat → List Nat
  | 0, _ => []
  | fuel + 1, L => if L = 0 then [] else min chunkedMTU L :: lensGo fuel (L - chunkedMTU)

/-- The loop of `binaryStringToArrayBuffer`:
`byteArray[i] = binary.charCodeAt(i) & 0xff` for each index `i`. -/
def bstabGo : List Nat → List Nat → Nat → List Nat
  | arr, [], _ => arr
  | arr, c :: cs, i => bstabGo (arr.set i (c &&& 0xff)) cs (i + 1)

/-- `Util.binaryStringToArrayBuffer(binary)`: allocate a `Uint8Array` of the
string's length (zero-filled) and fill it byte by byte.  The string is a list
of UTF-16 code units, as read by `charCodeAt`. -/
def binaryStringToArrayBuffer (binary : List Nat) : List Nat :=
  bstabGo (List.replicate binary.length 0) binary 0

/-- Regular expressions over `Char`, with a character-class constructor; the
shape needed to embed the literal `/^[A-Za-z0-9]+(?:[ _-][A-Za-z0-9]+)*$/`
of `Util.validateId` (`+` is encoded as `cat r (star r)`). -/
inductive RE where
  | fail
  | eps
  | cls (p : Char → Bool)
  | alt (r s : RE)
  | cat (r s : RE)
  | star (r : RE)

/-- Does the regular expression accept the empty string? -/
def RE.nullable : RE → Bool
  | .fail => false
  | .eps => true
  | .cls _ => false
  | .alt r s => r.nullable || s.nullable
  | .cat r s => r.nullable && s.nullable
  | .star _ => true

/-- Brzozowski derivative of a regular expression by one character. -/
def RE.deriv : RE → Char → RE
  | .fail, _ => .fail
  | .eps, _ => .fail
  | .cls p, c => if p c then .eps else .fail
  | .alt r s, c => .alt (r.deriv c) (s.deriv c)
  | .cat r s, c =>
      if r.nullable then .alt (.cat (r.deriv c) s) (s.deriv c) else .cat (r.deriv c) s
  | .star r, c => .cat (r.deriv c) (.star r)

/-- Full-anchor matching by repeated derivatives, the semantics of
`RegExp.prototype.test` for a `^...$`-anchored pattern. -/
def RE.rmatch : RE → List Char → Bool
  | r, [] => r.nullable
  | r, c :: s => (r.deriv c).rmatch s

/-- Declarative matching semantics for `RE`.  In `starCons` the first matched
block is explicitly nonempty, which describes the same language as the usual
Kleene star and makes inversion straightforward. -/
inductive RE.Matches : RE → List Char → Prop where
  | eps : RE.Matches .eps []
  | cls {p : Char → Bool} {c : Char} : p c = true → RE.Matches (.cls p) [c]
  | altL {r s : RE} {xs : List Char} : RE.Matches r xs → RE.Matches (.alt r s) xs
  | altR {r s : RE} {xs : List Char} : RE.Matches s xs → RE.Matches (.alt r s) xs
  | cat {r s : RE} {xs ys : List Char} :
      RE.Matches r xs → RE.Matches s ys → RE.Matches (.cat r s) (xs ++ ys)
  | starNil {r : RE} : RE.Matches (.star r) []
  | starCons {r : RE} {c : Char} {xs ys : List Char} :
      RE.Matches r (c :: xs) → RE.Matches (.star r) ys →
      RE.Matches (.star r) (c :: (xs ++ ys))

/-- The character class `[A-Za-z0-9]` of the `validateId` pattern. -/
def isAlnumChar (c : Char) : Bool :=
  decide (('A' ≤ c ∧ c ≤ 'Z') ∨ ('a' ≤ c ∧ c ≤ 'z') ∨ ('0' ≤ c ∧ c ≤ '9'))

/-- The character class `[ _-]` of the `validateId` pattern. -/
def isSepChar (c : Char) : Bool :=
  decide (c = ' ' ∨ c = '_' ∨ c = '-')

/-- The subpattern `[A-Za-z0-9]+`. -/
def alnumGroupRE : RE := .cat (.cls isAlnumChar) (.star (.cls isAlnumChar))

/-- The full pattern `^[A-Za-z0-9]+(?:[ _-][A-Za-z0-9]+)*$`. -/
def idRE : RE := .cat alnumGroupRE (.star (.cat (.cls isSepChar) alnumGroupRE))

/-- `Util.validateId(id)`: `!id || /^[A-Za-z0-9]+(?:[ _-][A-Za-z0-9]+)*$/.test(id)`.
A falsy string is exactly the empty string in this model. -/
def validateId (id : List Char) : Bool :=
  id.isEmpty || idRE.rmatch id

/-- A nonempty run of `[A-Za-z0-9]` characters, the "alphanumeric group" of
the specification's description of valid ids. -/
def IsAlnumGroup (g : List Char) : Prop :=
  g ≠ [] ∧ ∀ c ∈ g, isAlnumChar c = true

/-- The specification's characterization of a valid nonempty id: alphanumeric
groups separated by single space, underscore, or hyphen characters. -/
def GoodId (s : List Char) : Prop :=
  ∃ g : List Char, ∃ rest : List (Char × List Char),
    IsAlnumGroup g ∧ (∀ q ∈ rest, isSepChar q.1 = true ∧ IsAlnumGroup q.2) ∧
    s = g ++ (rest.map fun q => q.1 :: q.2).flatten

/-- Error tag named by the specification for a non-positive MTU. -/
def invalidConfigurationMsg : String := "InvalidConfiguration"

/-- Slicing loop of the specification's `fragment`, at an arbitrary MTU. -/
def sliceGo : Nat → List Nat → Nat → List (List Nat)
  | 0, _, _ => []
  | _ + 1, [], _ => []
  | fuel + 1, rest@(_ :: _), m => rest.take m :: sliceGo fuel (rest.drop m) m

/-- Modelled from the spec: the contract `fragment(buffer, mtu)` of section
4.1, which the code base does not contain (its `Util.chunk` takes no MTU
argument).  Per the spec's words it fails with `InvalidConfiguration` when
`mtu ≤ 0`, returns a single zero-length payload for an empty buffer, and
otherwise walks the buffer in strides of `mtu`. -/
def fragmentSpec (buffer : List Nat) (mtu : Int) : Except String (List (List Nat)) :=
  if mtu ≤ 0 then .error invalidConfigurationMsg
  else if buffer.isEmpty then .ok [[]]
  else .ok (sliceGo buffer.length buffer mtu.toNat)

theorem chunkedMTU_pos : 0 < chunkedMTU := by decide

theorem ceilDivNat_zero : ceilDivNat 0 chunkedMTU = 0 := by decide

theorem ceilDivNat_succ (L : Nat) (h : 0 < L) :
    ceilDivNat L chunkedMTU = ceilDivNat (L - chunkedMTU) chunkedMTU + 1 := by
  have hm : 0 < chunkedMTU := chunkedMTU_pos
  unfold ceilDivNat
  by_cases hL : L ≤ chunkedMTU
  · have h1 : L - chunkedMTU = 0 := by omega
    have h2 : L + chunkedMTU - 1 = (L - 1) + chunkedMTU := by omega
    rw [h1, h2, Nat.add_div_right _ hm,
      Nat.div_eq_of_lt (show L - 1 < chunkedMTU by omega),
      Nat.div_eq_of_lt (show 0 + chunkedMTU - 1 < chunkedMTU by omega)]
  · have h2 : L + chunkedMTU - 1 = (L - chunkedMTU + chunkedMTU - 1) + chunkedMTU := by
      omega
    rw [h2, Nat.add_div_right _ hm]

theorem chunkGo_flatten (cnt tot : Nat) :
    ∀ fuel rest idx, rest.length ≤ fuel →
      ((chunkGo cnt tot fuel rest idx).map (·.data)).flatten = rest := by
  intro fuel
  induction fuel with
  | zero =>
      intro rest idx h
      have hr : rest = [] := List.length_eq_zero.mp (Nat.le_zero.mp h)
      subst hr
      simp [chunkGo]
  | succ fuel ih =>
      intro rest idx h
      cases rest with
      | nil => simp [chunkGo]
      | cons x xs =>
          have hm : 0 < chunkedMTU := chunkedMTU_pos
          simp only [chunkGo, List.map_cons, List.flatten_cons]
          rw [ih ((x :: xs).drop chunkedMTU) (idx + 1)
            (by rw [List.length_drop]; simp only [List.length_cons] at h ⊢; omega)]
          exact List.take_append_drop _ _

theorem chunkGo_map_n (cnt tot : Nat) :
    ∀ fuel rest idx, rest.length ≤ fuel →
      (chunkGo cnt tot fuel rest idx).map (·.n) =
        List.range' idx (ceilDivNat rest.length chunkedMTU) := by
  intro fuel
  induction fuel with
  | zero =>
      intro rest idx h
      have hr : rest = [] := List.length_eq_zero.mp (Nat.le_zero.mp h)
      subst hr
      simp [chunkGo, ceilDivNat_zero]
  | succ fuel ih =>
      intro rest idx h
      cases rest with
      | nil => simp [chunkGo, ceilDivNat_zero]
      | cons x xs =>
          have hm : 0 < chunkedMTU := chunkedMTU_pos
          simp only [chunkGo, List.map_cons]
          rw [ih ((x :: xs).drop chunkedMTU) (idx + 1)
              (by rw [List.length_drop]; simp only [List.length_cons] at h ⊢; omega),
            List.length_drop,
            ceilDivNat_succ ((x :: xs).length) (by simp),
            List.range'_succ]

theorem chunkGo_length (cnt tot fuel : Nat) (rest : List Nat) (idx : Nat)
    (h : rest.length ≤ fuel) :
    (chunkGo cnt tot fuel rest idx).length = ceilDivNat rest.length chunkedMTU := by
  have hc := congrArg List.length (chunkGo_map_n cnt tot fuel rest idx h)
  simpa using hc

theorem chunkGo_mem (cnt tot : Nat) :
    ∀ fuel rest idx r, r ∈ chunkGo cnt tot fuel rest idx →
      r.__peerData = cnt ∧ r.total = tot ∧ r.data.length ≤ chunkedMTU := by
  intro fuel
  induction fuel with
  | zero => intro rest idx r hr; simp [chunkGo] at hr
  | succ fuel ih =>
      intro rest idx r hr
      cases rest with
      | nil => simp [chunkGo] at hr
      | cons x xs =>
          simp only [chunkGo, List.mem_cons] at hr
          rcases hr with hr | hr
          · subst hr
            refine ⟨rfl, rfl, ?_⟩
            rw [List.length_take]
            exact min_le_left _ _
          · exact ih _ _ _ hr

theorem chunkGo_map_len (cnt tot : Nat) :
    ∀ fuel rest idx,
      (chunkGo cnt tot fuel rest idx).map (·.data.length) = lensGo fuel rest.length := by
  intro fuel
  induction fuel with
  | zero => intro rest idx; simp [chunkGo, lensGo]
  | succ fuel ih =>
      intro rest idx
      cases rest with
      | nil => simp [chunkGo, lensGo]
      | cons x xs =>
          simp only [chunkGo, List.map_cons]
          rw [ih ((x :: xs).drop chunkedMTU) (idx + 1)]
          simp [lensGo, List.length_take, List.length_drop]

theorem lensGo_zero (fuel : Nat) : lensGo fuel 0 = [] := by
  cases fuel <;> simp [lensGo]

theorem lensGo_le (fuel : Nat) :
    ∀ L x, x ∈ lensGo fuel L → x ≤ chunkedMTU := by
  induction fuel with
  | zero => intro L x hx; simp [lensGo] at hx
  | succ fuel ih =>
      intro L x hx
      by_cases hL : L = 0
      · subst hL; simp [lensGo] at hx
      · simp only [lensGo, if_neg hL, List.mem_cons] at hx
        rcases hx with hx | hx
        · subst hx; exact min_le_left _ _
        · exact ih _ _ hx

theorem lensGo_getD (fuel : Nat) :
    ∀ L i, i + 1 < (lensGo fuel L).length → (lensGo fuel L).getD i 0 = chunkedMTU := by
  induction fuel with
  | zero => intro L i h; simp [lensGo] at h
  | succ fuel ih =>
      intro L i h
      by_cases hL : L = 0
      · subst hL; simp [lensGo] at h
      · simp only [lensGo, if_neg hL] at h ⊢
        cases i with
        | zero =>
            have htl : 0 < (lensGo fuel (L - chunkedMTU)).length := by
              simp only [List.length_cons] at h; omega
            have hLm : L - chunkedMTU ≠ 0 := by
              intro h0
              rw [h0, lensGo_zero] at htl
              simp at htl
            have hml : chunkedMTU ≤ L := by omega
            rw [List.getD_cons_zero]
            exact min_eq_left hml
        | succ i =>
            rw [List.getD_cons_succ]
            apply ih
            simp only [List.length_cons] at h
            omega

theorem concatLoop_eq :
    ∀ (bufs : List (List Nat)) (acc : List Nat) (off : Nat),
      acc.length = off + (bufs.map List.length).sum →
      concatLoop bufs acc off = acc.take off ++ bufs.flatten := by
  intro bufs
  induction bufs with
  | nil =>
      intro acc off h
      simp only [List.map_nil, List.sum_nil, Nat.add_zero] at h
      simp only [concatLoop, List.flatten_nil, List.append_nil]
      rw [← h, List.take_length]
  | cons b bs ih =>
      intro acc off h
      simp only [List.map_cons, List.sum_cons] at h
      have hoff : off ≤ acc.length := by omega
      have hlen : (writeAt acc b off).length = acc.length := by
        simp only [writeAt, List.length_append, List.length_take, List.length_drop,
          min_eq_left hoff]
        omega
      simp only [concatLoop]
      rw [ih (writeAt acc b off) (off + b.length) (by rw [hlen]; omega)]
      have h1 : (acc.take off).length = off := by
        rw [List.length_take]; exact min_eq_left hoff
      have hkey : (writeAt acc b off).take (off + b.length) = acc.take off ++ b := by
        unfold writeAt
        have h2 : off + b.length = (acc.take off ++ b).length := by
          simp [List.length_append, h1]
        rw [h2, List.take_left]
      rw [hkey, List.flatten_cons, List.append_assoc]

theorem concatArrayBuffers_eq_flatten (bufs : List (List Nat)) :
    concatArrayBuffers bufs = bufs.flatten := by
  unfold concatArrayBuffers
  rw [concatLoop_eq bufs _ 0 (by simp)]
  simp

theorem Util.chunk_fst (u : Util) (blob : List Nat) :
    (u.chunk blob).1 =
      chunkGo u._dataCount (ceilDivNat blob.length chunkedMTU) blob.length blob 0 := rfl

theorem Util.chunk_snd (u : Util) (blob : List Nat) :
    (u.chunk blob).2 = { _dataCount := u._dataCount + 1 } := rfl

/-- C1: concatenating the `data` payloads of the records returned by
`Util.chunk`, in the (ascending-`n`) order they are produced, via
`concatArrayBuffers`, reproduces the input buffer byte for byte. -/
theorem chunk_concat_roundtrip (u : Util) (blob : List Nat) :
    concatArrayBuffers (((u.chunk blob).1).map (·.data)) = blob := by
  rw [concatArrayBuffers_eq_flatten, Util.chunk_fst]
  exact chunkGo_flatten u._dataCount _ blob.length blob 0 (le_refl _)

/-- C2 counterexample: `Util.chunk` on the empty buffer returns the empty
list of chunk records, not a single-element sequence with `total = 1`:
`total = Math.ceil(0 / 16300) = 0` and the slicing loop never runs. -/
theorem chunk_empty_counterexample : (util.chunk []).1 = [] := rfl

/-- C2 (amended): fragmenting an empty (zero-length) byte buffer returns the
empty sequence of chunk records — zero chunks, not one. -/
theorem chunk_empty (u : Util) : (u.chunk []).1 = [] := rfl

/-- C3: `Util.chunk` produces exactly `ceil(byteLength / 16300)` records and
every record's `total` field equals that count; concretely, a 40000-byte
buffer yields 3 chunks with payload lengths 16300, 16300, 7400, each with
`total = 3`. -/
theorem chunk_count_total (u : Util) (blob : List Nat) :
    (u.chunk blob).1.length = ceilDivNat blob.length chunkedMTU ∧
    (∀ r ∈ (u.chunk blob).1, r.total = ceilDivNat blob.length chunkedMTU) ∧
    (util.chunk (List.replicate 40000 0)).1.map (·.data.length) = [16300, 16300, 7400] ∧
    (util.chunk (List.replicate 40000 0)).1.length = 3 ∧
    (∀ r ∈ (util.chunk (List.replicate 40000 0)).1, r.total = 3) := by
  have hgen : ∀ (v : Util) (b : List Nat),
      (v.chunk b).1.length = ceilDivNat b.length chunkedMTU := by
    intro v b
    rw [Util.chunk_fst]
    exact chunkGo_length _ _ _ _ _ (le_refl _)
  have htot : ∀ (v : Util) (b : List Nat), ∀ r ∈ (v.chunk b).1,
      r.total = ceilDivNat b.length chunkedMTU := by
    intro v b r hr
    rw [Util.chunk_fst] at hr
    exact (chunkGo_mem _ _ _ _ _ r hr).2.1
  refine ⟨hgen u blob, htot u blob, ?_, ?_, ?_⟩
  · rw [Util.chunk_fst, chunkGo_map_len, List.length_replicate]
    decide
  · rw [hgen util (List.replicate 40000 0), List.length_replicate]
    decide
  · intro r hr
    refine (htot util (List.replicate 40000 0) r hr).trans ?_
    rw [List.length_replicate]
    decide

/-- C3 witness: the theorem applied to the one-byte buffer `[7]` (one chunk,
`total = 1`), with every hypothesis discharged concretely. -/
theorem chunk_count_total_witness :
    (util.chunk [7]).1.length = 1 ∧
    ({ __peerData := 1, n := 0, data := [7], total := 1 } : ChunkRecord).total = 1 :=
  ⟨((chunk_count_total util [7]).1).trans (by decide),
   (chunk_count_total util [7]).2.1 _ (by decide) |>.trans (by decide)⟩

/-- C5: the sequence numbers of the records produced for any buffer are
exactly `0, 1, ..., count - 1` in slice order (the list of `n` fields is
`List.range` of the record count), where the count is
`ceil(byteLength / 16300)`. -/
theorem chunk_sequence_numbers (u : Util) (blob : List Nat) :
    (u.chunk blob).1.map (·.n) = List.range ((u.chunk blob).1.length) ∧
    (u.chunk blob).1.length = ceilDivNat blob.length chunkedMTU := by
  have h1 := chunkGo_map_n u._dataCount (ceilDivNat blob.length chunkedMTU)
    blob.length blob 0 (le_refl _)
  have h2 := chunkGo_length u._dataCount (ceilDivNat blob.length chunkedMTU)
    blob.length blob 0 (le_refl _)
  rw [Util.chunk_fst]
  exact ⟨by rw [h1, h2, List.range_eq_range'], h2⟩

/-- C6: each payload is at most the MTU; each payload except possibly the
last is exactly the MTU; the payload lengths sum to the buffer length; and
the payloads are contiguous, non-overlapping, gap-free, order-preserving
slices (their in-order concatenation is the buffer). -/
theorem chunk_payload_slices (u : Util) (blob : List Nat) :
    (∀ r ∈ (u.chunk blob).1, r.data.length ≤ chunkedMTU) ∧
    (∀ i, i + 1 < (u.chunk blob).1.length →
      ((u.chunk blob).1.map (·.data.length)).getD i 0 = chunkedMTU) ∧
    ((u.chunk blob).1.map (·.data.length)).sum = blob.length ∧
    concatArrayBuffers ((u.chunk blob).1.map (·.data)) = blob := by
  have h3 : (((u.chunk blob).1.map (·.data)).flatten) = blob := by
    rw [Util.chunk_fst]
    exact chunkGo_flatten _ _ _ _ _ (le_refl _)
  refine ⟨?_, ?_, ?_, ?_⟩
  · intro r hr
    rw [Util.chunk_fst] at hr
    exact (chunkGo_mem _ _ _ _ _ r hr).2.2
  · intro i hi
    rw [Util.chunk_fst] at hi ⊢
    rw [chunkGo_map_len]
    apply lensGo_getD
    rw [← chunkGo_map_len u._dataCount (ceilDivNat blob.length chunkedMTU) blob.length blob 0,
      List.length_map]
    exact hi
  · have h4 := congrArg List.length h3
    rw [List.length_flatten, List.map_map] at h4
    exact h4
  · rw [concatArrayBuffers_eq_flatten]
    exact h3

/-- C6 witness: the theorem applied to a one-byte buffer for the per-record
bound, and to a 16301-byte buffer (two chunks) for the
all-but-last-payload-is-exactly-MTU part. -/
theorem chunk_payload_slices_witness :
    ({ __peerData := 1, n := 0, data := [5], total := 1 } : ChunkRecord).data.length ≤
      chunkedMTU ∧
    ((util.chunk (List.replicate 16301 0)).1.map (·.data.length)).getD 0 0 = chunkedMTU :=
  ⟨(chunk_payload_slices util [5]).1 _ (by decide),
   (chunk_payload_slices util (List.replicate 16301 0)).2.1 0
     (by rw [Util.chunk_fst, chunkGo_length _ _ _ _ _ (le_refl _), List.length_replicate]
         decide)⟩

/-- C7: the transfer-id counter `_dataCount` starts at 1; a `chunk` call
increments it exactly once (so ids strictly increase across calls on the same
instance and are never reused), and every record returned by a single call
carries the pre-call counter value as its `__peerData` transfer id. -/
theorem dataCount_monotonic :
    util._dataCount = 1 ∧
    ∀ (u : Util) (blob : List Nat),
      (u.chunk blob).2._dataCount = u._dataCount + 1 ∧
      u._dataCount < (u.chunk blob).2._dataCount ∧
      ∀ r ∈ (u.chunk blob).1, r.__peerData = u._dataCount := by
  refine ⟨rfl, fun u blob => ⟨rfl, Nat.lt_succ_self _, fun r hr => ?_⟩⟩
  rw [Util.chunk_fst] at hr
  exact (chunkGo_mem _ _ _ _ _ r hr).1

/-- C7 witness: the theorem applied to the fresh singleton `util` and the
one-byte buffer `[9]`. -/
theorem dataCount_monotonic_witness :
    (util.chunk [9]).2._dataCount = 2 ∧
    ({ __peerData := 1, n := 0, data := [9], total := 1 } : ChunkRecord).__peerData = 1 :=
  ⟨((dataCount_monotonic.2 util [9]).1).trans rfl,
   ((dataCount_monotonic.2 util [9]).2.2 _ (by decide)).trans rfl⟩

/-- C4 counterexample: the claimed `fragment(buffer, mtu)` interface (here
`fragmentSpec`, modelled from the spec) rejects `mtu = 0` with
`InvalidConfiguration`, but the code's only fragmentation entry point
`Util.chunk` takes no MTU argument at all and succeeds unconditionally: on
the same one-byte buffer it plainly returns one record sliced at the fixed
`chunkedMTU`. -/
theorem chunk_no_mtu_counterexample :
    fragmentSpec [7] 0 = Except.error invalidConfigurationMsg ∧
    (util.chunk [7]).1 = [{ __peerData := 1, n := 0, data := [7], total := 1 }] :=
  ⟨rfl, rfl⟩

/-- C4 (amended): `Util.chunk` accepts no MTU argument and has no failure
path: for every counter state and buffer it succeeds, slicing at the fixed
positive `chunkedMTU` (16300), every payload being at most `chunkedMTU`
bytes. -/
theorem chunk_fixed_mtu_no_error (u : Util) (blob : List Nat) :
    0 < chunkedMTU ∧ ∀ r ∈ (u.chunk blob).1, r.data.length ≤ chunkedMTU := by
  refine ⟨chunkedMTU_pos, fun r hr => ?_⟩
  rw [Util.chunk_fst] at hr
  exact (chunkGo_mem _ _ _ _ _ r hr).2.2

/-- C4 witness: the amended theorem applied to the buffer `[3]`. -/
theorem chunk_fixed_mtu_no_error_witness :
    ({ __peerData := 1, n := 0, data := [3], total := 1 } : ChunkRecord).data.length ≤
      chunkedMTU :=
  (chunk_fixed_mtu_no_error util [3]).2 _ (by decide)

/-- C8: `concatArrayBuffers` returns the input buffers laid out in list order
(their flattening); hence its length is the sum of the input lengths, and on
the empty list it returns the zero-length array. -/
theorem concatArrayBuffers_spec (bufs : List (List Nat)) :
    concatArrayBuffers bufs = bufs.flatten ∧
    (concatArrayBuffers bufs).length = (bufs.map List.length).sum ∧
    concatArrayBuffers [] = [] := by
  refine ⟨concatArrayBuffers_eq_flatten bufs, ?_, rfl⟩
  rw [concatArrayBuffers_eq_flatten, List.length_flatten]

theorem bstabGo_eq :
    ∀ (cs arr : List Nat) (i : Nat),
      arr.length = i + cs.length →
      bstabGo arr cs i = arr.take i ++ cs.map (fun c => c &&& 0xff) := by
  intro cs
  induction cs with
  | nil =>
      intro arr i h
      simp only [bstabGo, List.map_nil, List.append_nil]
      simp only [List.length_nil, Nat.add_zero] at h
      rw [← h, List.take_length]
  | cons c cs ih =>
      intro arr i h
      simp only [List.length_cons] at h
      have hi : i < arr.length := by omega
      simp only [bstabGo, List.map_cons]
      rw [ih (arr.set i (c &&& 0xff)) (i + 1) (by rw [List.length_set]; omega)]
      have h1 : (arr.take i).length = i := by
        rw [List.length_take]; exact min_eq_left (le_of_lt hi)
      have hset : (arr.set i (c &&& 0xff)).take (i + 1) = arr.take i ++ [c &&& 0xff] := by
        rw [List.set_eq_take_append_cons_drop, if_pos hi,
          show i + 1 = (arr.take i).length + 1 by rw [h1], List.take_append]
        rfl
      rw [hset, List.append_assoc]
      rfl

theorem binaryStringToArrayBuffer_eq (binary : List Nat) :
    binaryStringToArrayBuffer binary = binary.map (fun c => c % 256) := by
  unfold binaryStringToArrayBuffer
  rw [bstabGo_eq binary (List.replicate binary.length 0) 0 (by simp),
    List.take_zero, List.nil_append]
  refine List.map_congr_left fun c _ => ?_
  have h := Nat.and_pow_two_sub_one_eq_mod c 8
  norm_num at h
  exact h

/-- C10: `binaryStringToArrayBuffer` returns a buffer whose byte length
equals the string's length (in UTF-16 code units, as read by `charCodeAt`),
and whose `i`-th byte is the `i`-th code unit masked with `0xff`, i.e.
reduced modulo 256. -/
theorem binaryStringToArrayBuffer_spec (binary : List Nat) :
    (binaryStringToArrayBuffer binary).length = binary.length ∧
    ∀ i, i < binary.length →
      (binaryStringToArrayBuffer binary).getD i 0 = (binary.getD i 0) % 256 := by
  rw [binaryStringToArrayBuffer_eq]
  refine ⟨by simp, fun i hi => ?_⟩
  rw [List.getD_eq_getElem _ _ (by simpa using hi), List.getD_eq_getElem _ _ hi,
    List.getElem_map]

/-- C10 witness: the theorem applied to the two-code-unit string
`[65, 0x1234]`; the second byte is `0x1234 % 256 = 52`. -/
theorem binaryStringToArrayBuffer_spec_witness :
    (binaryStringToArrayBuffer [65, 0x1234]).length = 2 ∧
    (binaryStringToArrayBuffer [65, 0x1234]).getD 1 0 = 52 :=
  ⟨((binaryStringToArrayBuffer_spec [65, 0x1234]).1).trans (by decide),
   ((binaryStringToArrayBuffer_spec [65, 0x1234]).2 1 (by decide)).trans (by decide)⟩

theorem RE.fail_inv {t : List Char} (h : RE.Matches .fail t) : False := by
  cases h

theorem RE.eps_inv {t : List Char} (h : RE.Matches .eps t) : t = [] := by
  cases h
  rfl

theorem RE.cls_inv {p : Char → Bool} {t : List Char} (h : RE.Matches (.cls p) t) :
    ∃ c, t = [c] ∧ p c = true := by
  cases h with
  | cls hp => exact ⟨_, rfl, hp⟩

theorem RE.alt_inv {r s : RE} {t : List Char} (h : RE.Matches (.alt r s) t) :
    RE.Matches r t ∨ RE.Matches s t := by
  cases h with
  | altL h1 => exact Or.inl h1
  | altR h1 => exact Or.inr h1

theorem RE.cat_inv {r s : RE} {t : List Char} (h : RE.Matches (.cat r s) t) :
    ∃ xs ys, t = xs ++ ys ∧ RE.Matches r xs ∧ RE.Matches s ys := by
  cases h with
  | cat h1 h2 => exact ⟨_, _, rfl, h1, h2⟩

theorem RE.star_cons_inv_aux {q : RE} {t : List Char} (h : RE.Matches q t) :
    ∀ (r : RE) (c : Char) (s : List Char), q = RE.star r → t = c :: s →
      ∃ xs ys, s = xs ++ ys ∧ RE.Matches r (c :: xs) ∧ RE.Matches (.star r) ys := by
  cases h with
  | eps => intro r c s hq ht; exact RE.noConfusion hq
  | cls hp => intro r c s hq ht; exact RE.noConfusion hq
  | altL h1 => intro r c s hq ht; exact RE.noConfusion hq
  | altR h1 => intro r c s hq ht; exact RE.noConfusion hq
  | cat h1 h2 => intro r c s hq ht; exact RE.noConfusion hq
  | starNil => intro r c s hq ht; exact List.noConfusion ht
  | starCons h1 h2 =>
      intro r c s hq ht
      injection hq with hr
      subst hr
      injection ht with hc hs
      subst hc
      exact ⟨_, _, hs.symm, h1, h2⟩

theorem RE.nullable_iff : ∀ r : RE, r.nullable = true ↔ RE.Matches r [] := by
  intro r
  induction r with
  | fail =>
      constructor
      · intro h; simp [RE.nullable] at h
      · intro h; exact (RE.fail_inv h).elim
  | eps =>
      constructor
      · intro _; exact RE.Matches.eps
      · intro _; rfl
  | cls p =>
      constructor
      · intro h; simp [RE.nullable] at h
      · intro h
        rcases RE.cls_inv h with ⟨c, hc, _⟩
        exact List.noConfusion hc
  | alt r s ihr ihs =>
      simp only [RE.nullable, Bool.or_eq_true]
      constructor
      · rintro (h | h)
        · exact RE.Matches.altL (ihr.mp h)
        · exact RE.Matches.altR (ihs.mp h)
      · intro h
        rcases RE.alt_inv h with h1 | h1
        · exact Or.inl (ihr.mpr h1)
        · exact Or.inr (ihs.mpr h1)
  | cat r s ihr ihs =>
      simp only [RE.nullable, Bool.and_eq_true]
      constructor
      · rintro ⟨h1, h2⟩
        exact RE.Matches.cat (ihr.mp h1) (ihs.mp h2)
      · intro h
        rcases RE.cat_inv h with ⟨xs, ys, heq, hx, hy⟩
        obtain ⟨hxs, hys⟩ := List.append_eq_nil.mp heq.symm
        subst hxs
        subst hys
        exact ⟨ihr.mpr hx, ihs.mpr hy⟩
  | star r ihr =>
      simp only [RE.nullable]
      exact ⟨fun _ => RE.Matches.starNil, fun _ => trivial⟩

theorem RE.deriv_iff : ∀ (r : RE) (c : Char) (s : List Char),
    RE.Matches (r.deriv c) s ↔ RE.Matches r (c :: s) := by
  intro r
  induction r with
  | fail =>
      intro c s
      exact ⟨fun h => (RE.fail_inv h).elim, fun h => (RE.fail_inv h).elim⟩
  | eps =>
      intro c s
      exact ⟨fun h => (RE.fail_inv h).elim, fun h => List.noConfusion (RE.eps_inv h)⟩
  | cls p =>
      intro c s
      simp only [RE.deriv]
      by_cases hp : p c = true
      · rw [if_pos hp]
        constructor
        · intro h
          have hs := RE.eps_inv h
          subst hs
          exact RE.Matches.cls hp
        · intro h
          rcases RE.cls_inv h with ⟨d, hd, hpd⟩
          injection hd with h1 h2
          subst h1
          subst h2
          exact RE.Matches.eps
      · rw [if_neg hp]
        constructor
        · intro h
          exact (RE.fail_inv h).elim
        · intro h
          rcases RE.cls_inv h with ⟨d, hd, hpd⟩
          injection hd with h1 h2
          subst h1
          exact absurd hpd hp
  | alt r s ihr ihs =>
      intro c t
      simp only [RE.deriv]
      constructor
      · intro h
        rcases RE.alt_inv h with h1 | h1
        · exact RE.Matches.altL ((ihr c t).mp h1)
        · exact RE.Matches.altR ((ihs c t).mp h1)
      · intro h
        rcases RE.alt_inv h with h1 | h1
        · exact RE.Matches.altL ((ihr c t).mpr h1)
        · exact RE.Matches.altR ((ihs c t).mpr h1)
  | cat r s ihr ihs =>
      intro c t
      simp only [RE.deriv]
      by_cases hn : r.nullable = true
      · rw [if_pos hn]
        constructor
        · intro h
          rcases RE.alt_inv h with h1 | h1
          · rcases RE.cat_inv h1 with ⟨xs, ys, rfl, hx, hy⟩
            exact RE.Matches.cat ((ihr c xs).mp hx) hy
          · exact RE.Matches.cat ((RE.nullable_iff r).mp hn) ((ihs c t).mp h1)
        · intro h
          rcases RE.cat_inv h with ⟨xs, ys, heq, hx, hy⟩
          cases xs with
          | nil =>
              simp only [List.nil_append] at heq
              subst heq
              exact RE.Matches.altR ((ihs c t).mpr hy)
          | cons x xs' =>
              rw [List.cons_append] at heq
              injection heq with h1 h2
              subst h1
              subst h2
              exact RE.Matches.altL (RE.Matches.cat ((ihr c xs').mpr hx) hy)
      · rw [if_neg hn]
        constructor
        · intro h
          rcases RE.cat_inv h with ⟨xs, ys, rfl, hx, hy⟩
          exact RE.Matches.cat ((ihr c xs).mp hx) hy
        · intro h
          rcases RE.cat_inv h with ⟨xs, ys, heq, hx, hy⟩
          cases xs with
          | nil =>
              simp only [List.nil_append] at heq
              exact absurd ((RE.nullable_iff r).mpr hx) hn
          | cons x xs' =>
              rw [List.cons_append] at heq
              injection heq with h1 h2
              subst h1
              subst h2
              exact RE.Matches.cat ((ihr c xs').mpr hx) hy
  | star r ihr =>
      intro c t
      simp only [RE.deriv]
      constructor
      · intro h
        rcases RE.cat_inv h with ⟨xs, ys, rfl, hx, hy⟩
        exact RE.Matches.starCons ((ihr c xs).mp hx) hy
      · intro h
        obtain ⟨xs, ys, heq, h1, h2⟩ := RE.star_cons_inv_aux h r c t rfl rfl
        subst heq
        exact RE.Matches.cat ((ihr c xs).mpr h1) h2

theorem RE.rmatch_iff : ∀ (s : List Char) (r : RE), r.rmatch s = true ↔ RE.Matches r s := by
  intro s
  induction s with
  | nil => intro r; exact RE.nullable_iff r
  | cons c s ih =>
      intro r
      exact (ih (r.deriv c)).trans (RE.deriv_iff r c s)

theorem RE.star_inv_aux {q : RE} {t : List Char} (h : RE.Matches q t) :
    ∀ r : RE, q = RE.star r →
      ∃ parts : List (List Char),
        t = parts.flatten ∧ ∀ xs ∈ parts, xs ≠ [] ∧ RE.Matches r xs := by
  induction h with
  | eps => intro r hq; exact RE.noConfusion hq
  | cls hp => intro r hq; exact RE.noConfusion hq
  | altL h1 ih1 => intro r hq; exact RE.noConfusion hq
  | altR h1 ih1 => intro r hq; exact RE.noConfusion hq
  | cat h1 h2 ih1 ih2 => intro r hq; exact RE.noConfusion hq
  | starNil => intro r hq; exact ⟨[], rfl, by simp⟩
  | @starCons r0 c xs ys h1 h2 ih1 ih2 =>
      intro r hq
      injection hq with hr
      subst hr
      obtain ⟨parts, hflat, hparts⟩ := ih2 _ rfl
      refine ⟨(c :: xs) :: parts, ?_, ?_⟩
      · rw [List.flatten_cons, ← hflat, List.cons_append]
      · intro zs hz
        rcases List.mem_cons.mp hz with h | h
        · subst h; exact ⟨List.cons_ne_nil _ _, h1⟩
        · exact hparts zs h

theorem RE.starCls_chars {p : Char → Bool} {s : List Char}
    (h : RE.Matches (.star (.cls p)) s) : ∀ c ∈ s, p c = true := by
  obtain ⟨parts, rfl, hparts⟩ := RE.star_inv_aux h _ rfl
  intro c hc
  rcases List.mem_flatten.mp hc with ⟨xs, hxs, hcx⟩
  obtain ⟨-, hm⟩ := hparts xs hxs
  rcases RE.cls_inv hm with ⟨d, rfl, hp⟩
  rw [List.mem_singleton] at hcx
  subst hcx
  exact hp

theorem RE.starCls_of_chars {p : Char → Bool} :
    ∀ s : List Char, (∀ c ∈ s, p c = true) → RE.Matches (.star (.cls p)) s := by
  intro s
  induction s with
  | nil => intro _; exact RE.Matches.starNil
  | cons c s ih =>
      intro h
      have h1 : RE.Matches (.cls p) [c] := RE.Matches.cls (h c (List.mem_cons_self _ _))
      have h2 := ih fun d hd => h d (List.mem_cons_of_mem _ hd)
      exact RE.Matches.starCons h1 h2

theorem RE.plusCls_iff {p : Char → Bool} {s : List Char} :
    RE.Matches (.cat (.cls p) (.star (.cls p))) s ↔ s ≠ [] ∧ ∀ c ∈ s, p c = true := by
  constructor
  · intro h
    rcases RE.cat_inv h with ⟨xs, ys, rfl, h1, h2⟩
    rcases RE.cls_inv h1 with ⟨c, rfl, hp⟩
    refine ⟨by simp, ?_⟩
    intro d hd
    rw [List.singleton_append] at hd
    rcases List.mem_cons.mp hd with rfl | hm
    · exact hp
    · exact RE.starCls_chars h2 d hm
  · rintro ⟨hne, hall⟩
    cases s with
    | nil => exact absurd rfl hne
    | cons c s' =>
        have h1 : RE.Matches (.cls p) [c] :=
          RE.Matches.cls (hall c (List.mem_cons_self _ _))
        have h2 := RE.starCls_of_chars s' fun d hd => hall d (List.mem_cons_of_mem _ hd)
        exact RE.Matches.cat h1 h2

theorem RE.sepGroup_iff {s : List Char} :
    RE.Matches (.cat (.cls isSepChar) alnumGroupRE) s ↔
      ∃ c g, s = c :: g ∧ isSepChar c = true ∧ IsAlnumGroup g := by
  constructor
  · intro h
    rcases RE.cat_inv h with ⟨xs, ys, rfl, h1, h2⟩
    rcases RE.cls_inv h1 with ⟨c, rfl, hp⟩
    exact ⟨c, ys, by rw [List.singleton_append], hp, RE.plusCls_iff.mp h2⟩
  · rintro ⟨c, g, rfl, hsep, hg⟩
    have h1 : RE.Matches (.cls isSepChar) [c] := RE.Matches.cls hsep
    have h2 : RE.Matches alnumGroupRE g := RE.plusCls_iff.mpr hg
    exact RE.Matches.cat h1 h2

theorem RE.parts_to_rest :
    ∀ parts : List (List Char),
      (∀ xs ∈ parts, RE.Matches (.cat (.cls isSepChar) alnumGroupRE) xs) →
      ∃ rest : List (Char × List Char),
        (∀ q ∈ rest, isSepChar q.1 = true ∧ IsAlnumGroup q.2) ∧
        parts.flatten = (rest.map fun q => q.1 :: q.2).flatten := by
  intro parts
  induction parts with
  | nil => intro _; exact ⟨[], by simp, by simp⟩
  | cons p ps ih =>
      intro hp
      obtain ⟨rest, hrest, hflat⟩ := ih fun xs hx => hp xs (List.mem_cons_of_mem _ hx)
      rcases RE.sepGroup_iff.mp (hp p (List.mem_cons_self _ _)) with ⟨c, g, rfl, hsep, hg⟩
      refine ⟨(c, g) :: rest, ?_, ?_⟩
      · intro q hq
        rcases List.mem_cons.mp hq with rfl | hq
        · exact ⟨hsep, hg⟩
        · exact hrest q hq
      · simp only [List.flatten_cons, List.map_cons, hflat]

theorem RE.rest_to_star :
    ∀ rest : List (Char × List Char),
      (∀ q ∈ rest, isSepChar q.1 = true ∧ IsAlnumGroup q.2) →
      RE.Matches (.star (.cat (.cls isSepChar) alnumGroupRE))
        ((rest.map fun q => q.1 :: q.2).flatten) := by
  intro rest
  induction rest with
  | nil => intro _; exact RE.Matches.starNil
  | cons q rest ih =>
      intro hrest
      obtain ⟨hsep, hg⟩ := hrest q (List.mem_cons_self _ _)
      have hm : RE.Matches (.cat (.cls isSepChar) alnumGroupRE) (q.1 :: q.2) :=
        RE.sepGroup_iff.mpr ⟨q.1, q.2, rfl, hsep, hg⟩
      have htail := ih fun p hp => hrest p (List.mem_cons_of_mem _ hp)
      simp only [List.map_cons, List.flatten_cons, List.cons_append]
      exact RE.Matches.starCons hm htail

theorem RE.sepTail_iff {s : List Char} :
    RE.Matches (.star (.cat (.cls isSepChar) alnumGroupRE)) s ↔
      ∃ rest : List (Char × List Char),
        (∀ q ∈ rest, isSepChar q.1 = true ∧ IsAlnumGroup q.2) ∧
        s = (rest.map fun q => q.1 :: q.2).flatten := by
  constructor
  · intro h
    obtain ⟨parts, rfl, hparts⟩ := RE.star_inv_aux h _ rfl
    obtain ⟨rest, hrest, hflat⟩ := RE.parts_to_rest parts fun xs hx => (hparts xs hx).2
    exact ⟨rest, hrest, hflat⟩
  · rintro ⟨rest, hrest, rfl⟩
    exact RE.rest_to_star rest hrest

theorem RE.idRE_iff {s : List Char} : RE.Matches idRE s ↔ GoodId s := by
  constructor
  · intro h
    have h' : RE.Matches
        (.cat alnumGroupRE (.star (.cat (.cls isSepChar) alnumGroupRE))) s := h
    rcases RE.cat_inv h' with ⟨xs, ys, rfl, h1, h2⟩
    obtain ⟨rest, hrest, rfl⟩ := RE.sepTail_iff.mp h2
    exact ⟨xs, rest, RE.plusCls_iff.mp h1, hrest, rfl⟩
  · rintro ⟨g, rest, hg, hrest, rfl⟩
    have h1 : RE.Matches alnumGroupRE g := RE.plusCls_iff.mpr hg
    have h2 := RE.rest_to_star rest hrest
    exact RE.Matches.cat h1 h2

/-- C9: `validateId` returns `true` on the empty string, and on any nonempty
string it returns `true` exactly when the string consists of alphanumeric
`[A-Za-z0-9]+` groups separated by single space, underscore, or hyphen
characters — the language of `/^[A-Za-z0-9]+(?:[ _-][A-Za-z0-9]+)*$/`. -/
theorem validateId_spec (s : List Char) :
    validateId s = true ↔ (s = [] ∨ GoodId s) := by
  unfold validateId
  rw [Bool.or_eq_true]
  constructor
  · rintro (h | h)
    · exact Or.inl (by simpa using h)
    · exact Or.inr (RE.idRE_iff.mp ((RE.rmatch_iff s idRE).mp h))
  · rintro (rfl | h)
    · exact Or.inl rfl
    · exact Or.inr ((RE.rmatch_iff s idRE).mpr (RE.idRE_iff.mpr h))
